import Mathlib

/-!
# Verification of the cortical-magnification fitting notebook

Shallow embedding of the analysis code in `notebooks/general-cmag.ipynb`
(data loader `subdata`, filter predicates `filt_base` / `filt_wedge` /
`filt_ring` / `filt_sect`, the single-fit routine `fit_cmag_cumecc`, the
batch driver `fitall_cmag_cumecc`, and the closed-form model functions
`HH91`, `HH91_integral`, `HH91_c1`, `beta_form`).

Vertex-record columns are modelled as lists of rationals (the cached
arrays are `float32`, a subset of `ℚ`); the model-form functions and the
empirical cumulative curve are modelled over `ℝ`.  External library calls
(`scipy.optimize.minimize`, file IO, `neuropythy` loading) are abstracted:
the modelled fit result keeps the deterministic part of
`fit_cmag_cumecc`, namely the empirical cumulative-area curve it builds,
and the data loader is modelled as a function of an explicit environment
recording which files exist.
-/

namespace CMag

/-- A per-subject/hemisphere vertex-record mapping: the dict returned by
`subdata` in the notebook.  Each field is one column of the cached array
(`label, x, y, sigma, polar_angle, eccentricity, surface_area, cod`). -/
structure SubData where
  label : List ℚ
  x : List ℚ
  y : List ℚ
  sigma : List ℚ
  polar_angle : List ℚ
  eccentricity : List ℚ
  surface_area : List ℚ
  cod : List ℚ

/-- Pointwise logical AND of two boolean masks (numpy `&` on boolean
arrays); like numpy it is elementwise, and we truncate to the shorter
operand where numpy would raise on mismatched shapes. -/
def band (a b : List Bool) : List Bool := List.zipWith and a b

/-- `filt_base(subdat, maxecc=7)`: the mask `subdat['eccentricity'] < maxecc`. -/
def filt_base (subdat : SubData) (maxecc : ℚ := 7) : List Bool :=
  subdat.eccentricity.map (fun e => decide (e < maxecc))

/-- `filt_wedge(subdat, minangle, maxangle)`:
`filt_base(subdat) & (ang >= minangle) & (ang <= maxangle)`. -/
def filt_wedge (subdat : SubData) (minangle maxangle : ℚ) : List Bool :=
  band
    (band (filt_base subdat)
      (subdat.polar_angle.map (fun t => decide (minangle ≤ t))))
    (subdat.polar_angle.map (fun t => decide (t ≤ maxangle)))

/-- `filt_ring(subdat, minecc, maxecc)`:
`filt_base(subdat) & (ecc >= minecc) & (ecc <= maxecc)`. -/
def filt_ring (subdat : SubData) (minecc maxecc : ℚ) : List Bool :=
  band
    (band (filt_base subdat)
      (subdat.eccentricity.map (fun e => decide (minecc ≤ e))))
    (subdat.eccentricity.map (fun e => decide (e ≤ maxecc)))

/-- `filt_sect(subdat, minang, maxang, minecc, maxecc)`:
`filt_base(subdat) & filt_wedge(...) & filt_ring(...)`. -/
def filt_sect (subdat : SubData) (minang maxang minecc maxecc : ℚ) : List Bool :=
  band
    (band (filt_base subdat) (filt_wedge subdat minang maxang))
    (filt_ring subdat minecc maxecc)

theorem band_comm (a b : List Bool) : band a b = band b a := by
  induction a generalizing b with
  | nil => cases b <;> rfl
  | cons x xs ih =>
    cases b with
    | nil => rfl
    | cons y ys => simp [band, List.zipWith] at ih ⊢; exact ⟨Bool.and_comm x y, ih ys⟩

theorem band_assoc (a b c : List Bool) : band (band a b) c = band a (band b c) := by
  induction a generalizing b c with
  | nil => rfl
  | cons x xs ih =>
    cases b with
    | nil => rfl
    | cons y ys =>
      cases c with
      | nil => rfl
      | cons z zs =>
        simp [band, List.zipWith] at ih ⊢
        exact ⟨Bool.and_assoc x y z, ih ys zs⟩

theorem band_getD (a b : List Bool) (i : Nat) :
    (band a b).getD i false = (a.getD i false && b.getD i false) := by
  rw [band, List.getD_eq_getElem?_getD, List.getElem?_zipWith,
    List.getD_eq_getElem?_getD, List.getD_eq_getElem?_getD]
  cases a[i]? <;> cases b[i]? <;> simp

theorem map_getD_false (l : List ℚ) (f : ℚ → Bool) (i : Nat) :
    ((l.map f).getD i false = true) ↔ (i < l.length ∧ f (l.getD i 0) = true) := by
  rw [List.getD_eq_getElem?_getD, List.getElem?_map, List.getD_eq_getElem?_getD]
  cases h : l[i]? with
  | none =>
    have hle : l.length ≤ i := List.getElem?_eq_none_iff.mp h
    simp; omega
  | some e =>
    have hlt : i < l.length := (List.getElem?_eq_some_iff.mp h).1
    simp [hlt]

/-- **C5.** `filt_sect(d, a0, a1, e0, e1)` equals the pointwise logical AND of
`filt_wedge(d, a0, a1)`, `filt_ring(d, e0, e1)` and `filt_base(d)`. -/
theorem filt_sect_eq_wedge_and_ring_and_base
    (d : SubData) (a0 a1 e0 e1 : ℚ) :
    filt_sect d a0 a1 e0 e1 =
      band (band (filt_wedge d a0 a1) (filt_ring d e0 e1)) (filt_base d) := by
  rw [filt_sect, band_comm (band (filt_wedge d a0 a1) (filt_ring d e0 e1)) (filt_base d),
    ← band_assoc]

/-- **C9.** Every composed filter (`filt_wedge`, `filt_ring`, `filt_sect`)
conjoins `filt_base` with its default eccentricity cutoff of `7`: an entry of
any of these masks is `true` exactly when the vertex is in range, its
eccentricity is strictly below `7` (so no vertex with eccentricity `≥ 7` is
ever selected, even when the ring upper bound `e1` exceeds `7`, and a vertex at
exactly `7` is excluded), and the inclusive (`≤`) wedge/ring bound conditions
hold. -/
theorem composed_filters_respect_base_cutoff
    (d : SubData) (a0 a1 e0 e1 : ℚ) (i : Nat) :
    ((filt_wedge d a0 a1).getD i false = true ↔
      (i < d.eccentricity.length ∧ i < d.polar_angle.length ∧
        d.eccentricity.getD i 0 < 7 ∧ a0 ≤ d.polar_angle.getD i 0 ∧
        d.polar_angle.getD i 0 ≤ a1)) ∧
    ((filt_ring d e0 e1).getD i false = true ↔
      (i < d.eccentricity.length ∧ d.eccentricity.getD i 0 < 7 ∧
        e0 ≤ d.eccentricity.getD i 0 ∧ d.eccentricity.getD i 0 ≤ e1)) ∧
    ((filt_sect d a0 a1 e0 e1).getD i false = true ↔
      (i < d.eccentricity.length ∧ i < d.polar_angle.length ∧
        d.eccentricity.getD i 0 < 7 ∧ a0 ≤ d.polar_angle.getD i 0 ∧
        d.polar_angle.getD i 0 ≤ a1 ∧ e0 ≤ d.eccentricity.getD i 0 ∧
        d.eccentricity.getD i 0 ≤ e1)) ∧
    ((filt_sect d a0 a1 e0 e1).getD i false = true →
      d.eccentricity.getD i 0 < 7) := by
  have hw : (filt_wedge d a0 a1).getD i false = true ↔
      (i < d.eccentricity.length ∧ i < d.polar_angle.length ∧
        d.eccentricity.getD i 0 < 7 ∧ a0 ≤ d.polar_angle.getD i 0 ∧
        d.polar_angle.getD i 0 ≤ a1) := by
    simp only [filt_wedge, filt_base, band_getD, Bool.and_eq_true, map_getD_false,
      decide_eq_true_eq]
    tauto
  have hr : (filt_ring d e0 e1).getD i false = true ↔
      (i < d.eccentricity.length ∧ d.eccentricity.getD i 0 < 7 ∧
        e0 ≤ d.eccentricity.getD i 0 ∧ d.eccentricity.getD i 0 ≤ e1) := by
    simp only [filt_ring, filt_base, band_getD, Bool.and_eq_true, map_getD_false,
      decide_eq_true_eq]
    tauto
  have hs : (filt_sect d a0 a1 e0 e1).getD i false = true ↔
      (i < d.eccentricity.length ∧ i < d.polar_angle.length ∧
        d.eccentricity.getD i 0 < 7 ∧ a0 ≤ d.polar_angle.getD i 0 ∧
        d.polar_angle.getD i 0 ≤ a1 ∧ e0 ≤ d.eccentricity.getD i 0 ∧
        d.eccentricity.getD i 0 ≤ e1) := by
    simp only [filt_sect, filt_base, band_getD, Bool.and_eq_true, hw, hr,
      map_getD_false, decide_eq_true_eq]
    tauto
  exact ⟨hw, hr, hs, fun h => ((hs.mp h).2.2.1)⟩

/-- Witness for **C9** at a concrete vertex-record mapping: the sector filter
selects index `0` (angle `45` in `[0, 90]`, eccentricity `3` in `[1, 10]`,
below the base cutoff), and its eccentricity is indeed below `7`. -/
theorem composed_filters_respect_base_cutoff_witness :
    (filt_sect
        { label := [1], x := [1], y := [1], sigma := [1], polar_angle := [45],
          eccentricity := [3], surface_area := [1], cod := [1] }
        0 90 1 10).getD 0 false = true ∧
      ({ label := [1], x := [1], y := [1], sigma := [1], polar_angle := [45],
          eccentricity := [3], surface_area := [1], cod := [1] } :
          SubData).eccentricity.getD 0 0 < 7 :=
  ⟨by decide,
    (composed_filters_respect_base_cutoff
      { label := [1], x := [1], y := [1], sigma := [1], polar_angle := [45],
        eccentricity := [3], surface_area := [1], cod := [1] }
      0 90 1 10 0).2.2.2 (by decide)⟩

/-- Environment of the data loader `subdata`: which of the files it probes
exist, and the vertex records that would be obtained from the cache file or
from a fresh read of the dataset.  The external reads (`neuropythy`,
`np.load`/`np.save`) are abstracted into the two data fields. -/
structure SubEnv where
  cache_is_file : Bool
  ventral_is_file : Bool
  dorsal_is_file : Bool
  cached_data : SubData
  fresh_data : SubData

/-- `subdata(sid, h, ..., overwrite)`: control flow of the loader.  On a cache
hit (and no `overwrite`) it reads the cache; otherwise it checks for the
ventral and dorsal label-overlay files, raising `RuntimeError` with the
notebook's exact message when one is missing, and builds (and caches) the
data when both exist.  A raised error is modelled as `Except.error`; nothing
catches it, so the result of the call is the error itself. -/
def subdata (sid h : String) (overwrite : Bool) (env : SubEnv) :
    Except String SubData :=
  if overwrite || !env.cache_is_file then
    if !env.ventral_is_file then
      .error ("ventral file not found for subject " ++ sid ++ "/" ++ h)
    else if !env.dorsal_is_file then
      .error ("dorsal file not found for subject " ++ sid ++ "/" ++ h)
    else .ok env.fresh_data
  else .ok env.cached_data

/-- **C8.** Whenever `subdata` actually needs the label-overlay files (cache
missing or `overwrite` set), a missing ventral or dorsal file makes it fail
with a fatal error whose message names the missing subject and hemisphere;
the error is the final outcome of the call (nothing retries or recovers). -/
theorem subdata_missing_overlay_raises
    (sid h : String) (overwrite : Bool) (env : SubEnv)
    (hneed : overwrite = true ∨ env.cache_is_file = false) :
    (env.ventral_is_file = false →
      subdata sid h overwrite env =
        .error ("ventral file not found for subject " ++ sid ++ "/" ++ h)) ∧
    (env.ventral_is_file = true → env.dorsal_is_file = false →
      subdata sid h overwrite env =
        .error ("dorsal file not found for subject " ++ sid ++ "/" ++ h)) := by
  have hcond : (overwrite || !env.cache_is_file) = true := by
    rcases hneed with h1 | h1 <;> simp [h1]
  constructor
  · intro hv
    simp [subdata, hcond, hv]
  · intro hv hd
    simp [subdata, hcond, hv, hd]

/-- A vertex-record mapping with empty columns, used in concrete instances. -/
def emptySubData : SubData := ⟨[], [], [], [], [], [], [], []⟩

/-- Witness for **C8**: subject `111312`, hemisphere `lh`, no cache, ventral
file missing. -/
theorem subdata_missing_overlay_raises_witness :
    subdata "111312" "lh" false ⟨false, false, true, emptySubData, emptySubData⟩ =
      .error "ventral file not found for subject 111312/lh" :=
  (subdata_missing_overlay_raises "111312" "lh" false _ (Or.inr rfl)).1 rfl

/-- `HH91(x, a=17.3, b=0.75)`: the areal Horton & Hoyt model `(a / (x + b))**2`. -/
noncomputable def HH91 (x : ℝ) (a : ℝ := 17.3) (b : ℝ := 0.75) : ℝ :=
  (a / (x + b)) ^ 2

/-- `HH91_integral(x, a=17.3, b=0.75)`: the notebook's closed-form cumulative
function `a**2 * np.pi * (np.log(xb / b) - x / xb)` with `xb = x + b`. -/
noncomputable def HH91_integral (x : ℝ) (a : ℝ := 17.3) (b : ℝ := 0.75) : ℝ :=
  a ^ 2 * Real.pi * (Real.log ((x + b) / b) - x / (x + b))

/-- `HH91_c1(totalarea, b=0.75, maxecc=7)`: the coefficient `a` solving
`totalarea = HH91_integral(maxecc, a, b)`,
`np.sqrt(totalarea / np.pi / (np.log(mb / b) - maxecc / mb))` with
`mb = maxecc + b`. -/
noncomputable def HH91_c1 (totalarea : ℝ) (b : ℝ := 0.75) (maxecc : ℝ := 7) : ℝ :=
  Real.sqrt (totalarea / Real.pi /
    (Real.log ((maxecc + b) / b) - maxecc / (maxecc + b)))

/-- `HH91_argtx = (np.sqrt, lambda x: np.array(x)**2)`: the forward/inverse
parameter reparameterization pair for the Horton & Hoyt fits. -/
noncomputable def HH91_argtx : (List ℝ → List ℝ) × (List ℝ → List ℝ) :=
  (fun p => p.map Real.sqrt, fun p => p.map (fun v => v ^ 2))

/-- Model of `scipy.stats.beta.cdf(q, a, b)` (an external library call): the
regularized incomplete beta function, clamped to `0` below `q = 0` and to `1`
above `q = 1`. -/
noncomputable def betaCdf (q a b : ℝ) : ℝ :=
  if q ≤ 0 then 0
  else if 1 ≤ q then 1
  else (∫ t in (0:ℝ)..q, t ^ (a - 1) * (1 - t) ^ (b - 1)) /
    (∫ t in (0:ℝ)..1, t ^ (a - 1) * (1 - t) ^ (b - 1))

/-- `beta_form(x, a, b, maxecc=7)`: `beta.cdf(x / maxecc, a, b)`. -/
noncomputable def beta_form (x a b : ℝ) (maxecc : ℝ := 7) : ℝ :=
  betaCdf (x / maxecc) a b

/-- `beta_argtx = (np.sqrt, lambda x: np.array(x)**2)`. -/
noncomputable def beta_argtx : (List ℝ → List ℝ) × (List ℝ → List ℝ) :=
  (fun p => p.map Real.sqrt, fun p => p.map (fun v => v ^ 2))

/-- The bracket `log((x+b)/b) - x/(x+b)` of the Horton & Hoyt cumulative form
is nonnegative for `x ≥ 0`, `b > 0`. -/
theorem HHlog_nonneg {x b : ℝ} (hx : 0 ≤ x) (hb : 0 < b) :
    x / (x + b) ≤ Real.log ((x + b) / b) := by
  have hxb : 0 < x + b := by linarith
  have h := Real.one_sub_inv_le_log_of_pos (div_pos hxb hb)
  have hinv : ((x + b) / b)⁻¹ = b / (x + b) := by
    rw [inv_div]
  have hsub : 1 - b / (x + b) = x / (x + b) := by
    field_simp
  rw [hinv, hsub] at h
  exact h

/-- The bracket `log((x+b)/b) - x/(x+b)` is strictly positive for `x > 0`,
`b > 0`. -/
theorem HHlog_pos {x b : ℝ} (hx : 0 < x) (hb : 0 < b) :
    x / (x + b) < Real.log ((x + b) / b) := by
  have hxb : 0 < x + b := by linarith
  have hlt : b / (x + b) < 1 := (div_lt_one hxb).mpr (by linarith)
  have h := Real.log_lt_sub_one_of_pos (div_pos hb hxb) (ne_of_lt hlt)
  have h1 : Real.log (b / (x + b)) = -Real.log ((x + b) / b) := by
    rw [Real.log_div (ne_of_gt hb) (ne_of_gt hxb),
      Real.log_div (ne_of_gt hxb) (ne_of_gt hb)]
    ring
  have h2 : b / (x + b) - 1 = -(x / (x + b)) := by
    field_simp
  rw [h1, h2] at h
  linarith

/-- **C3.** Plugging the `A0`-reparameterized coefficient `HH91_c1(A0, b, R)`
back into the cumulative form at `r = R` reproduces the total area:
`HH91_integral(R, HH91_c1(A0, b, R), b) = A0` for all `A0 > 0`, `b > 0`,
`R > 0`. -/
theorem HH91_c1_roundtrip (A0 b R : ℝ) (hA : 0 < A0) (hb : 0 < b) (hR : 0 < R) :
    HH91_integral R (HH91_c1 A0 b R) b = A0 := by
  have hL : 0 < Real.log ((R + b) / b) - R / (R + b) :=
    sub_pos.mpr (HHlog_pos hR hb)
  have hq : 0 ≤ A0 / Real.pi / (Real.log ((R + b) / b) - R / (R + b)) :=
    div_nonneg (div_nonneg hA.le Real.pi_pos.le) hL.le
  rw [HH91_integral, HH91_c1, Real.sq_sqrt hq]
  have hπ : Real.pi ≠ 0 := Real.pi_ne_zero
  have hLne : Real.log ((R + b) / b) - R / (R + b) ≠ 0 := ne_of_gt hL
  generalize hLg : Real.log ((R + b) / b) - R / (R + b) = L at hLne ⊢
  have : A0 / Real.pi / L * Real.pi * L = A0 * (Real.pi * L) / (Real.pi * L) := by
    ring
  rw [this, mul_div_cancel_right₀ A0 (mul_ne_zero hπ hLne)]

/-- Witness for **C3** at `A0 = 1`, `b = 1`, `R = 1`. -/
theorem HH91_c1_roundtrip_witness :
    (0:ℝ) < 1 ∧ HH91_integral 1 (HH91_c1 1 1 1) 1 = 1 :=
  ⟨by norm_num, HH91_c1_roundtrip 1 1 1 (by norm_num) (by norm_num) (by norm_num)⟩

/-- **C7, counterexample.** The parameter `b = 0` is reachable through the
squaring reparameterization (`0 = 0 ** 2`), but there `HH91_integral` divides
by zero: at `x = 1`, `a = 1`, `b = 0` the real-valued embedding (where `t / 0
= 0` and `log 0 = 0`) yields `-π < 0`, so the forms are not well-defined and
non-negative on all reachable parameters.  (In floating point the same input
produces `inf`/`nan`.) -/
theorem HH91_integral_at_zero_b_negative : HH91_integral 1 1 0 < 0 := by
  have h : HH91_integral 1 1 0 = -Real.pi := by
    rw [HH91_integral]
    norm_num
  rw [h]
  linarith [Real.pi_pos]

/-- **C7, amended.** Each model form is a pure function; restricted to
strictly positive `b` (and, for the Beta form, to the parameters scipy
accepts), every form yields a well-defined non-negative output at every
non-negative eccentricity, and every parameter produced by the inverse
(squaring) transforms of `HH91_argtx` / `beta_argtx` is non-negative.  At
`b = 0` the Horton & Hoyt cumulative form divides by zero and is not
well-defined. -/
theorem model_forms_nonneg (x a b q al be : ℝ) (hx : 0 ≤ x) (hb : 0 < b) :
    0 ≤ HH91 x a b ∧ 0 ≤ HH91_integral x a b ∧ 0 ≤ beta_form q al be ∧
      (∀ l : List ℝ, ∀ p ∈ HH91_argtx.2 l, 0 ≤ p) ∧
      (∀ l : List ℝ, ∀ p ∈ beta_argtx.2 l, 0 ≤ p) := by
  refine ⟨sq_nonneg _, ?_, ?_, ?_, ?_⟩
  · exact mul_nonneg (mul_nonneg (sq_nonneg a) Real.pi_pos.le)
      (sub_nonneg.mpr (HHlog_nonneg hx hb))
  · rw [beta_form, betaCdf]
    split_ifs with h1 h2
    · exact le_refl 0
    · exact zero_le_one
    · refine div_nonneg ?_ ?_
      · refine intervalIntegral.integral_nonneg (le_of_lt (not_le.mp h1)) ?_
        intro u hu
        exact mul_nonneg (Real.rpow_nonneg hu.1 _)
          (Real.rpow_nonneg (by linarith [hu.2, not_le.mp h2]) _)
      · refine intervalIntegral.integral_nonneg zero_le_one ?_
        intro u hu
        exact mul_nonneg (Real.rpow_nonneg hu.1 _)
          (Real.rpow_nonneg (by linarith [hu.2]) _)
  · intro l p hp
    rcases List.mem_map.mp hp with ⟨v, _, rfl⟩
    exact sq_nonneg v
  · intro l p hp
    rcases List.mem_map.mp hp with ⟨v, _, rfl⟩
    exact sq_nonneg v

/-- Witness for the amended **C7** at `x = 1`, `a = 1`, `b = 1`, `q = 1`,
`α = 1`, `β = 1`. -/
theorem model_forms_nonneg_witness :
    (0:ℝ) ≤ 1 ∧ (0:ℝ) < 1 ∧
      (0 ≤ HH91 1 1 1 ∧ 0 ≤ HH91_integral 1 1 1 ∧ 0 ≤ beta_form 1 1 1 ∧
        (∀ l : List ℝ, ∀ p ∈ HH91_argtx.2 l, 0 ≤ p) ∧
        (∀ l : List ℝ, ∀ p ∈ beta_argtx.2 l, 0 ≤ p)) :=
  ⟨by norm_num, by norm_num,
    model_forms_nonneg 1 1 1 1 1 1 (by norm_num) (by norm_num)⟩

/-- Derivative of the notebook's cumulative form: for `b > 0` and any `t`
with `t + b > 0`, `d/dt HH91_integral(t, a, b) = π · t · HH91(t, a, b)` —
one factor `π`, not the `2π` of a full-disk integral. -/
theorem HH91_integral_hasDerivAt (a b t : ℝ) (hb : 0 < b) (htb : 0 < t + b) :
    HasDerivAt (fun r => HH91_integral r a b) (Real.pi * t * HH91 t a b) t := by
  have h1 : HasDerivAt (fun r : ℝ => (r + b) / b) (1 / b) t := by
    simpa using ((hasDerivAt_id t).add_const b).div_const b
  have h2 : HasDerivAt (fun r : ℝ => Real.log ((r + b) / b))
      (1 / b / ((t + b) / b)) t :=
    h1.log (ne_of_gt (div_pos htb hb))
  have h3 : HasDerivAt (fun r : ℝ => r / (r + b))
      ((1 * (t + b) - t * 1) / (t + b) ^ 2) t :=
    (hasDerivAt_id t).div ((hasDerivAt_id t).add_const b) (ne_of_gt htb)
  have h4 := ((h2.sub h3).const_mul (a ^ 2 * Real.pi))
  have heq : (fun r : ℝ => a ^ 2 * Real.pi *
      (Real.log ((r + b) / b) - r / (r + b))) =
      (fun r => HH91_integral r a b) := by
    funext r
    rw [HH91_integral]
  rw [heq] at h4
  convert h4 using 1
  rw [HH91]
  field_simp
  ring

/-- `HH91_integral(0, a, b) = 0` for `b ≠ 0`. -/
theorem HH91_integral_zero (a b : ℝ) (hb : b ≠ 0) : HH91_integral 0 a b = 0 := by
  rw [HH91_integral]
  simp [div_self hb]

/-- Fundamental-theorem computation: for `b > 0` and `r ≥ 0` the notebook's
closed form equals the integral of `π · t · HH91(t, a, b)` from `0` to `r`
(the integral of the areal model over a half-disk / hemifield). -/
theorem HH91_halfdisk_integral_eq (a b r : ℝ) (hb : 0 < b) (hr : 0 ≤ r) :
    (∫ t in (0:ℝ)..r, Real.pi * t * HH91 t a b) = HH91_integral r a b := by
  have huicc : Set.uIcc (0:ℝ) r = Set.Icc 0 r := Set.uIcc_of_le hr
  have hderiv : ∀ t ∈ Set.uIcc (0:ℝ) r,
      HasDerivAt (fun u => HH91_integral u a b) (Real.pi * t * HH91 t a b) t := by
    intro t ht
    rw [huicc] at ht
    exact HH91_integral_hasDerivAt a b t hb (by linarith [ht.1])
  have hcont : ContinuousOn (fun t => Real.pi * t * HH91 t a b)
      (Set.uIcc (0:ℝ) r) := by
    rw [huicc]
    have hne : ∀ t ∈ Set.Icc (0:ℝ) r, t + b ≠ 0 := by
      intro t ht
      have := ht.1
      positivity
    refine ContinuousOn.mul ?_ ?_
    · exact (continuous_const.mul continuous_id).continuousOn
    · refine ContinuousOn.pow ?_ 2
      exact continuousOn_const.div
        ((continuous_id.add continuous_const).continuousOn) hne
  have hint : IntervalIntegrable (fun t => Real.pi * t * HH91 t a b)
      MeasureTheory.volume 0 r := hcont.intervalIntegrable
  rw [intervalIntegral.integral_eq_sub_of_hasDerivAt hderiv hint,
    HH91_integral_zero a b hb.ne', sub_zero]

/-- **C4, counterexample.** The notebook's closed form is NOT the integral of
the areal model `HH91` over the full visual-field disk: at `r = 1`, `a = 1`,
`b = 1` it differs from `∫₀¹ 2π t · HH91(t) dt` (the full-disk integral, which
is what the repository's notes derive, `M(r) = 2π a² (log((b+r)/b) −
r/(b+r))`); the code's value is exactly half of it. -/
theorem HH91_integral_ne_disk_integral :
    HH91_integral 1 1 1 ≠ ∫ t in (0:ℝ)..1, 2 * Real.pi * t * HH91 t 1 1 := by
  have hfun : (fun t : ℝ => 2 * Real.pi * t * HH91 t 1 1) =
      (fun t : ℝ => 2 * (Real.pi * t * HH91 t 1 1)) := by
    funext t
    ring
  rw [hfun, intervalIntegral.integral_const_mul,
    HH91_halfdisk_integral_eq 1 1 1 (by norm_num) (by norm_num)]
  have hval : HH91_integral 1 1 1 = Real.pi * (Real.log 2 - 1 / 2) := by
    rw [HH91_integral]
    norm_num
  have hpos : 0 < HH91_integral 1 1 1 := by
    rw [hval]
    have h2 : (0.6931471803 : ℝ) < Real.log 2 := Real.log_two_gt_d9
    have : (0:ℝ) < Real.log 2 - 1 / 2 := by linarith
    exact mul_pos Real.pi_pos this
  intro h
  nlinarith

/-- **C4, amended.** The closed-form cumulative function `HH91_integral`
matches the spec's stated formula `π a² (ln((b+r)/b) − r/(b+r))` (that is its
definition), vanishes at `r = 0`, and its derivative in `r` is
`π · r · HH91(r, a, b)` — so it is the integral of the areal Horton & Hoyt
model over a HALF-disk (hemifield) of radius `r`, i.e. exactly half of the
full-disk integral `2π a² (ln((b+r)/b) − r/(b+r))` derived in the
repository's math notes. -/
theorem HH91_integral_is_halfdisk_integral (a b r : ℝ) (hb : 0 < b) (hr : 0 ≤ r) :
    HH91_integral r a b = (∫ t in (0:ℝ)..r, Real.pi * t * HH91 t a b) ∧
      HH91_integral 0 a b = 0 ∧
      HasDerivAt (fun u => HH91_integral u a b) (Real.pi * r * HH91 r a b) r :=
  ⟨(HH91_halfdisk_integral_eq a b r hb hr).symm,
    HH91_integral_zero a b hb.ne',
    HH91_integral_hasDerivAt a b r hb (by linarith)⟩

/-- Witness for the amended **C4** at `a = 1`, `b = 1`, `r = 1`. -/
theorem HH91_integral_is_halfdisk_integral_witness :
    (0:ℝ) < 1 ∧ (0:ℝ) ≤ 1 ∧
      (HH91_integral 1 1 1 = (∫ t in (0:ℝ)..1, Real.pi * t * HH91 t 1 1) ∧
        HH91_integral 0 1 1 = 0 ∧
        HasDerivAt (fun u => HH91_integral u 1 1) (Real.pi * 1 * HH91 1 1 1) 1) :=
  ⟨by norm_num, by norm_num,
    HH91_integral_is_halfdisk_integral 1 1 1 (by norm_num) (by norm_num)⟩

/-- Running sum with accumulator: `cumsumAux acc [a, b, ...] =
[acc + a, acc + a + b, ...]`. -/
def cumsumAux (acc : ℝ) : List ℝ → List ℝ
  | [] => []
  | a :: l => (acc + a) :: cumsumAux (acc + a) l

/-- `np.cumsum`: the running sum of a list. -/
def cumsum (l : List ℝ) : List ℝ := cumsumAux 0 l

/-- Comparison of `(eccentricity, surface-area)` records by eccentricity,
the key `np.argsort(eccen)` sorts by. -/
def eccLE (p q : ℝ × ℝ) : Prop := p.1 ≤ q.1

/-- Strict comparison by eccentricity. -/
def eccLT (p q : ℝ × ℝ) : Prop := p.1 < q.1

noncomputable instance : DecidableRel eccLE :=
  fun p q => inferInstanceAs (Decidable (p.1 ≤ q.1))

instance : IsTotal (ℝ × ℝ) eccLE := ⟨fun a b => le_total a.1 b.1⟩

instance : IsTrans (ℝ × ℝ) eccLE := ⟨fun _ _ _ h1 h2 => le_trans h1 h2⟩

instance : IsAntisymm (ℝ × ℝ) eccLT := ⟨fun _ _ h1 h2 => ((lt_asymm h1) h2).elim⟩

/-- The deterministic core of `fit_cmag_cumecc(prf_x, prf_y, surface_areas,
...)`: `eccen = np.hypot(prf_x, prf_y)`, joint sort of `(eccen, sarea)` by
ascending eccentricity (`ii = np.argsort(eccen)`), and the empirical
cumulative curve `(eccen, np.cumsum(sarea))`.  The subsequent call to
`scipy.optimize.minimize` (with `formfn`, `params0`, `method`, `lossfn`,
`weights`, `argtx`) is an external black box; the fit-result object is
represented here by this curve, the deterministic data the optimizer is run
against. -/
noncomputable def fit_cmag_cumecc (prf_x prf_y surface_areas : List ℝ) :
    List (ℝ × ℝ) :=
  let eccen := List.zipWith (fun x y => Real.sqrt (x ^ 2 + y ^ 2)) prf_x prf_y
  let pts := eccen.zip surface_areas
  let sorted := List.insertionSort eccLE pts
  (sorted.map Prod.fst).zip (cumsum (sorted.map Prod.snd))

theorem cumsumAux_length (acc : ℝ) (l : List ℝ) :
    (cumsumAux acc l).length = l.length := by
  induction l generalizing acc with
  | nil => rfl
  | cons a t ih => simp [cumsumAux, ih]

theorem cumsum_length (l : List ℝ) : (cumsum l).length = l.length :=
  cumsumAux_length 0 l

theorem cumsumAux_chain (acc : ℝ) (l : List ℝ) (h : ∀ a ∈ l, 0 ≤ a) :
    List.Chain' (· ≤ ·) (acc :: cumsumAux acc l) := by
  induction l generalizing acc with
  | nil => simp [cumsumAux]
  | cons a t ih =>
    rw [cumsumAux]
    refine List.chain'_cons.mpr ⟨?_, ih (acc + a) (fun b hb => h b (by simp [hb]))⟩
    have : 0 ≤ a := h a (by simp)
    linarith

theorem cumsum_chain (l : List ℝ) (h : ∀ a ∈ l, 0 ≤ a) :
    List.Chain' (· ≤ ·) (cumsum l) :=
  (cumsumAux_chain 0 l h).tail

theorem cumsumAux_getLastD (acc : ℝ) (l : List ℝ) :
    (cumsumAux acc l).getLastD acc = acc + l.sum := by
  induction l generalizing acc with
  | nil => simp [cumsumAux]
  | cons a t ih =>
    rw [cumsumAux, List.getLastD_cons, ih (acc + a)]
    simp
    ring

theorem cumsum_getLastD (l : List ℝ) : (cumsum l).getLastD 0 = l.sum := by
  have := cumsumAux_getLastD 0 l
  simpa [cumsum] using this

/-- Zipping two locally-chained lists gives a list chained in both
coordinates. -/
theorem chain'_zip {α β : Type} {r : α → α → Prop} {s : β → β → Prop} :
    ∀ (l1 : List α) (l2 : List β), List.Chain' r l1 → List.Chain' s l2 →
      List.Chain' (fun p q => r p.1 q.1 ∧ s p.2 q.2) (l1.zip l2)
  | [], _, _, _ => by simp
  | _ :: _, [], _, _ => by simp
  | [a], _ :: _, _, _ => by simp
  | a :: b :: t1, [c], _, _ => by simp
  | a :: b :: t1, c :: d :: t2, h1, h2 => by
    rw [List.zip_cons_cons, List.zip_cons_cons, List.chain'_cons]
    have hh1 := List.chain'_cons.mp h1
    have hh2 := List.chain'_cons.mp h2
    refine ⟨⟨hh1.1, hh2.1⟩, ?_⟩
    have := chain'_zip (b :: t1) (d :: t2) hh1.2 hh2.2
    rwa [List.zip_cons_cons] at this

/-- Evaluation of the empirical curve on a two-vertex input whose first
eccentricity is not above the second. -/
theorem fit_cmag_cumecc_pair (x1 y1 a1 x2 y2 a2 : ℝ)
    (h : Real.sqrt (x1 ^ 2 + y1 ^ 2) ≤ Real.sqrt (x2 ^ 2 + y2 ^ 2)) :
    fit_cmag_cumecc [x1, x2] [y1, y2] [a1, a2] =
      [(Real.sqrt (x1 ^ 2 + y1 ^ 2), a1),
        (Real.sqrt (x2 ^ 2 + y2 ^ 2), a1 + a2)] := by
  simp [fit_cmag_cumecc, cumsum, cumsumAux, List.insertionSort,
    List.orderedInsert, eccLE, h]

/-- **C2, counterexample.**  Read literally over arbitrary input arrays, the
monotonicity claim fails: a negative "surface area" entry makes the running
sum decrease.  With `x = [0, 3]`, `y = [0, 4]`, `areas = [1, -1]` the curve is
`[(0, 1), (5, 0)]`, which is not non-decreasing in the second coordinate. -/
theorem fit_cmag_cumecc_curve_not_always_monotone :
    ¬ List.Chain' (fun p q : ℝ × ℝ => p.1 ≤ q.1 ∧ p.2 ≤ q.2)
        (fit_cmag_cumecc [0, 3] [0, 4] [1, -1]) := by
  have h : Real.sqrt ((0:ℝ) ^ 2 + 0 ^ 2) ≤ Real.sqrt (3 ^ 2 + 4 ^ 2) :=
    Real.sqrt_le_sqrt (by norm_num)
  rw [fit_cmag_cumecc_pair 0 0 1 3 4 (-1) h]
  intro hc
  have h2 := (List.chain'_pair.mp hc).2
  norm_num at h2

/-- **C2, amended.**  For any equal-length `x`, `y`, surface-area arrays whose
surface areas are nonnegative (as areas of mesh faces are), the empirical
cumulative-area curve built by `fit_cmag_cumecc` — sort by `hypot(x, y)`
ascending, then running sum of surface area — is non-decreasing in both
coordinates, and its final value equals the sum of the surface areas. -/
theorem fit_cmag_cumecc_curve_monotone (xs ys sa : List ℝ)
    (h1 : xs.length = ys.length) (h2 : ys.length = sa.length)
    (hnn : ∀ a ∈ sa, 0 ≤ a) :
    List.Chain' (fun p q : ℝ × ℝ => p.1 ≤ q.1 ∧ p.2 ≤ q.2)
        (fit_cmag_cumecc xs ys sa) ∧
      ((fit_cmag_cumecc xs ys sa).map Prod.snd).getLastD 0 = sa.sum := by
  have hel : (List.zipWith (fun x y => Real.sqrt (x ^ 2 + y ^ 2)) xs ys).length
      = sa.length := by
    rw [List.length_zipWith]
    omega
  set eccen := List.zipWith (fun x y => Real.sqrt (x ^ 2 + y ^ 2)) xs ys
    with heccen
  set pts := eccen.zip sa with hpts
  set sorted := List.insertionSort eccLE pts with hsorteddef
  have hperm : sorted.Perm pts := List.perm_insertionSort eccLE pts
  have hsorted : List.Sorted eccLE sorted := List.sorted_insertionSort eccLE pts
  have hsnd : pts.map Prod.snd = sa := List.map_snd_zip eccen sa (le_of_eq hel.symm)
  have hsndperm : (sorted.map Prod.snd).Perm sa := by
    rw [← hsnd]
    exact hperm.map Prod.snd
  have hnn' : ∀ a ∈ sorted.map Prod.snd, 0 ≤ a :=
    fun a ha => hnn a (hsndperm.mem_iff.mp ha)
  have hfstchain : List.Chain' (· ≤ ·) (sorted.map Prod.fst) := by
    have hp : (sorted.map Prod.fst).Pairwise (· ≤ ·) :=
      List.pairwise_map.mpr (hsorted.imp (fun h => h))
    exact hp.chain'
  have hsndchain : List.Chain' (· ≤ ·) (cumsum (sorted.map Prod.snd)) :=
    cumsum_chain _ hnn'
  have hfit : fit_cmag_cumecc xs ys sa =
      (sorted.map Prod.fst).zip (cumsum (sorted.map Prod.snd)) := rfl
  constructor
  · rw [hfit]
    exact chain'_zip _ _ hfstchain hsndchain
  · rw [hfit, List.map_snd_zip _ _ (by simp [cumsum_length]),
      cumsum_getLastD]
    exact hsndperm.sum_eq

/-- Witness for the amended **C2** at `x = [3, 0]`, `y = [4, 0]`,
`areas = [2, 5]`. -/
theorem fit_cmag_cumecc_curve_monotone_witness :
    ([3, 0] : List ℝ).length = ([4, 0] : List ℝ).length ∧
      ([4, 0] : List ℝ).length = ([2, 5] : List ℝ).length ∧
      (∀ a ∈ ([2, 5] : List ℝ), 0 ≤ a) ∧
      (List.Chain' (fun p q : ℝ × ℝ => p.1 ≤ q.1 ∧ p.2 ≤ q.2)
          (fit_cmag_cumecc [3, 0] [4, 0] [2, 5]) ∧
        ((fit_cmag_cumecc [3, 0] [4, 0] [2, 5]).map Prod.snd).getLastD 0 =
          ([2, 5] : List ℝ).sum) :=
  ⟨rfl, rfl, by norm_num,
    fit_cmag_cumecc_curve_monotone [3, 0] [4, 0] [2, 5] rfl rfl (by norm_num)⟩

/-- Zipping a `zipWith` against a third list is a `map` over the zip of the
three lists. -/
theorem zipWith_zip_map (f : ℝ → ℝ → ℝ) :
    ∀ (xs ys sa : List ℝ), (List.zipWith f xs ys).zip sa =
      ((xs.zip ys).zip sa).map (fun t => (f t.1.1 t.1.2, t.2))
  | [], _, _ => by simp
  | _ :: _, [], _ => by simp
  | _ :: _, _ :: _, [] => by simp
  | x :: xs, y :: ys, a :: sa => by
    simp only [List.zipWith_cons_cons, List.zip_cons_cons, List.map_cons]
    rw [zipWith_zip_map f xs ys sa]

/-- **C6, counterexample.**  With tied eccentricities the empirical curve is
NOT invariant under a joint permutation of the inputs: for `x = [1, 1]`,
`y = [0, 0]` and areas `[1, 2]` versus the swapped `[2, 1]`, the curves are
`[(1, 1), (1, 3)]` and `[(1, 2), (1, 3)]`, which differ in their first
cumulative value. -/
theorem fit_cmag_cumecc_tie_order_dependent :
    fit_cmag_cumecc [1, 1] [0, 0] [1, 2] ≠ fit_cmag_cumecc [1, 1] [0, 0] [2, 1] := by
  rw [fit_cmag_cumecc_pair 1 0 1 1 0 2 le_rfl,
    fit_cmag_cumecc_pair 1 0 2 1 0 1 le_rfl]
  intro h
  rw [List.cons.injEq, Prod.mk.injEq] at h
  have : (1:ℝ) = 2 := h.1.2
  norm_num at this

/-- **C6, amended.**  If the eccentricities `hypot(x, y)` of the vertices are
pairwise distinct, the empirical cumulative curve built by `fit_cmag_cumecc`
is invariant under any permutation applied jointly to the three input arrays
(stated as: the zipped triples of the two inputs are permutations of each
other).  With ties the claim fails (the running sums at a tied eccentricity
depend on the order in which the tied records appear). -/
theorem fit_cmag_cumecc_perm_invariant (xs ys sa xs' ys' sa' : List ℝ)
    (h1 : xs.length = ys.length) (h2 : ys.length = sa.length)
    (hperm : ((xs.zip ys).zip sa).Perm ((xs'.zip ys').zip sa'))
    (hdist : (List.zipWith (fun x y => Real.sqrt (x ^ 2 + y ^ 2)) xs ys).Pairwise
      (· ≠ ·)) :
    fit_cmag_cumecc xs ys sa = fit_cmag_cumecc xs' ys' sa' := by
  have hel : (List.zipWith (fun x y => Real.sqrt (x ^ 2 + y ^ 2)) xs ys).length
      = sa.length := by
    rw [List.length_zipWith]
    omega
  set g : (ℝ × ℝ) × ℝ → ℝ × ℝ :=
    fun t => (Real.sqrt (t.1.1 ^ 2 + t.1.2 ^ 2), t.2) with hg
  have hpts : (List.zipWith (fun x y => Real.sqrt (x ^ 2 + y ^ 2)) xs ys).zip sa
      = ((xs.zip ys).zip sa).map g :=
    zipWith_zip_map _ xs ys sa
  have hpts' : (List.zipWith (fun x y => Real.sqrt (x ^ 2 + y ^ 2)) xs' ys').zip sa'
      = ((xs'.zip ys').zip sa').map g :=
    zipWith_zip_map _ xs' ys' sa'
  set pts := (List.zipWith (fun x y => Real.sqrt (x ^ 2 + y ^ 2)) xs ys).zip sa
    with hptsdef
  set pts' := (List.zipWith (fun x y => Real.sqrt (x ^ 2 + y ^ 2)) xs' ys').zip sa'
    with hptsdef'
  have hpp : pts.Perm pts' := by
    rw [hpts, hpts']
    exact hperm.map g
  have hfst : pts.map Prod.fst
      = List.zipWith (fun x y => Real.sqrt (x ^ 2 + y ^ 2)) xs ys :=
    List.map_fst_zip _ sa (le_of_eq hel)
  have hne : pts.Pairwise (fun p q : ℝ × ℝ => p.1 ≠ q.1) := by
    rw [← hfst] at hdist
    exact List.pairwise_map.mp hdist
  have hsym : ∀ {p q : ℝ × ℝ}, p.1 ≠ q.1 → q.1 ≠ p.1 := fun h => h.symm
  have hstrict : ∀ l : List (ℝ × ℝ), l.Perm pts → List.Sorted eccLE l →
      List.Sorted eccLT l := by
    intro l hl hs
    have hnel : l.Pairwise (fun p q : ℝ × ℝ => p.1 ≠ q.1) :=
      (hl.pairwise_iff (fun {_ _} hxy => hsym hxy)).mpr hne
    exact (hs.and hnel).imp (fun h => lt_of_le_of_ne h.1 h.2)
  have hs1 : List.Sorted eccLT (List.insertionSort eccLE pts) :=
    hstrict _ (List.perm_insertionSort eccLE pts)
      (List.sorted_insertionSort eccLE pts)
  have hs2 : List.Sorted eccLT (List.insertionSort eccLE pts') :=
    hstrict _ ((List.perm_insertionSort eccLE pts').trans hpp.symm)
      (List.sorted_insertionSort eccLE pts')
  have hsameperm : (List.insertionSort eccLE pts).Perm
      (List.insertionSort eccLE pts') :=
    (List.perm_insertionSort eccLE pts).trans
      (hpp.trans (List.perm_insertionSort eccLE pts').symm)
  have hsorteq : List.insertionSort eccLE pts = List.insertionSort eccLE pts' :=
    List.eq_of_perm_of_sorted hsameperm hs1 hs2
  show (List.map Prod.fst (List.insertionSort eccLE pts)).zip
      (cumsum (List.map Prod.snd (List.insertionSort eccLE pts)))
    = (List.map Prod.fst (List.insertionSort eccLE pts')).zip
      (cumsum (List.map Prod.snd (List.insertionSort eccLE pts')))
  rw [hsorteq]

/-- Witness for the amended **C6**: `x = [1, 2]`, `y = [0, 0]`,
`areas = [1, 2]`, jointly swapped to `[2, 1]`, `[0, 0]`, `[2, 1]`; the
eccentricities `1` and `2` are distinct and the curves agree. -/
theorem fit_cmag_cumecc_perm_invariant_witness :
    ([1, 2] : List ℝ).length = ([0, 0] : List ℝ).length ∧
      (((([1, 2] : List ℝ).zip ([0, 0] : List ℝ)).zip ([1, 2] : List ℝ)).Perm
        ((([2, 1] : List ℝ).zip ([0, 0] : List ℝ)).zip ([2, 1] : List ℝ))) ∧
      fit_cmag_cumecc [1, 2] [0, 0] [1, 2] = fit_cmag_cumecc [2, 1] [0, 0] [2, 1] := by
  have e1 : Real.sqrt ((1:ℝ) ^ 2 + 0 ^ 2) = 1 := by
    rw [show (1:ℝ) ^ 2 + 0 ^ 2 = 1 by norm_num, Real.sqrt_one]
  have e2 : Real.sqrt ((2:ℝ) ^ 2 + 0 ^ 2) = 2 := by
    rw [show (2:ℝ) ^ 2 + 0 ^ 2 = 2 ^ 2 by norm_num,
      Real.sqrt_sq (by norm_num : (0:ℝ) ≤ 2)]
  have hperm : ((([1, 2] : List ℝ).zip ([0, 0] : List ℝ)).zip ([1, 2] : List ℝ)).Perm
      ((([2, 1] : List ℝ).zip ([0, 0] : List ℝ)).zip ([2, 1] : List ℝ)) := by
    simp only [List.zip_cons_cons, List.zip_nil_right]
    exact List.Perm.swap _ _ _
  refine ⟨rfl, hperm, ?_⟩
  refine fit_cmag_cumecc_perm_invariant [1, 2] [0, 0] [1, 2] [2, 1] [0, 0] [2, 1]
    rfl rfl hperm ?_
  have hz : List.zipWith (fun x y => Real.sqrt (x ^ 2 + y ^ 2))
      ([1, 2] : List ℝ) ([0, 0] : List ℝ) = [1, 2] := by
    simp [e1, e2]
  rw [hz]
  refine List.pairwise_cons.mpr ⟨?_, ?_⟩
  · intro b hb
    rw [List.mem_singleton] at hb
    rw [hb]
    norm_num
  · simp

/-- The `weights` argument of `fitall_cmag_cumecc`.  Python allows `None`, a
string naming a data key (the documented use), or — after the loop body
rebinds the variable — a numpy array of per-vertex weights. -/
inductive Weights where
  | none
  | key (s : String)
  | arr (v : List ℚ)

/-- numpy's `ValueError` text for `bool()` of a multi-element array. -/
def ambiguousMsg : String :=
  "The truth value of an array with more than one element is ambiguous. Use a.any() or a.all()"

/-- Python's `not weights`: `None` and the empty string are falsy; for a numpy
array, `bool()` works only on single-element arrays and raises `ValueError`
otherwise. -/
def npNot : Weights → Except String Bool
  | .none => .ok true
  | .key s => .ok (decide (s = ""))
  | .arr v => if v.length = 1 then .ok (decide (v.headD 0 = 0)) else .error ambiguousMsg

/-- `hdata[k]` for a string key: the column of the vertex-record dict, or a
`KeyError` for an unknown key. -/
def SubData.lookup (d : SubData) (k : String) : Except String (List ℚ) :=
  if k = "label" then .ok d.label
  else if k = "x" then .ok d.x
  else if k = "y" then .ok d.y
  else if k = "sigma" then .ok d.sigma
  else if k = "polar_angle" then .ok d.polar_angle
  else if k = "eccentricity" then .ok d.eccentricity
  else if k = "surface_area" then .ok d.surface_area
  else if k = "cod" then .ok d.cod
  else .error ("KeyError: " ++ k)

/-- Whether `k` is one of the eight columns of the vertex-record dict. -/
def validKey (k : String) : Bool :=
  decide (k = "label") || decide (k = "x") || decide (k = "y") ||
    decide (k = "sigma") || decide (k = "polar_angle") ||
    decide (k = "eccentricity") || decide (k = "surface_area") ||
    decide (k = "cod")

/-- Boolean-mask selection `arr[ii]` of numpy. -/
def maskSelect (l : List ℚ) (m : List Bool) : List ℚ :=
  ((l.zip m).filter (fun p => p.2)).map Prod.fst

/-- `np.sum(ii)` of a boolean mask: the number of `True` entries. -/
def countTrue (m : List Bool) : Nat := m.count true

/-- The type of the optional `filter` argument of `fitall_cmag_cumecc`. -/
def FiltFn := SubData → List Bool

/-- `ii = filter(hdata) & (hdata['label'] == lbl)`.  A falsy `filter` is
replaced by `lambda dat: True` in the code, and `True & mask = mask`, so
`Option.none` yields the bare label mask. -/
def selMask (filt : Option FiltFn) (hd : SubData) (lbl : ℚ) : List Bool :=
  let lm := hd.label.map (fun v => decide (v = lbl))
  match filt with
  | Option.none => lm
  | Option.some f => band (f hd) lm

/-- The modelled fit-result object: the deterministic empirical curve the
optimizer is run against (see `fit_cmag_cumecc`). -/
def FitResult := List (ℝ × ℝ)

/-- `weights = None if not weights else hdata[weights][ii]`: the loop body of
`fitall_cmag_cumecc` rebinding its own `weights` variable.  A truthy string
indexes the dict and selects the masked column (a numpy array); a truthy
array would be used as an (unhashable) dict key, a `TypeError`. -/
def stepWeights (w : Weights) (hd : SubData) (m : List Bool) :
    Except String Weights :=
  (npNot w).bind (fun nw =>
    if nw then .ok Weights.none
    else
      match w with
      | .none => .ok Weights.none
      | .key s => (hd.lookup s).bind (fun col => .ok (.arr (maskSelect col m)))
      | .arr _ => .error "TypeError: unhashable type: numpy.ndarray")

/-- One iteration of the innermost loop of `fitall_cmag_cumecc` for label
`lbl`: build the selection mask, record `None` when fewer than `5` vertices
are selected, otherwise rebind `weights` and call `fit_cmag_cumecc` on the
masked columns. -/
noncomputable def fitcell (filt : Option FiltFn) (hd : SubData) (w : Weights)
    (lbl : ℚ) : Except String (Weights × Option FitResult) :=
  let m := selMask filt hd lbl
  if countTrue m < 5 then .ok (w, Option.none)
  else
    (stepWeights w hd m).bind (fun w' =>
      .ok (w', Option.some (fit_cmag_cumecc
        ((maskSelect hd.x m).map (fun q => (q : ℝ)))
        ((maskSelect hd.y m).map (fun q => (q : ℝ)))
        ((maskSelect hd.surface_area m).map (fun q => (q : ℝ))))))

/-- Sequential processing of a list by a stateful, fallible step: the shape of
each of the three nested loops of `fitall_cmag_cumecc`, threading the
function-level `weights` variable through every iteration and propagating a
raised exception. -/
def foldE {α β : Type} (step : Weights → α → Except String (Weights × β)) :
    Weights → List α → Except String (Weights × List β)
  | w, [] => .ok (w, [])
  | w, a :: l =>
    (step w a).bind (fun p =>
      (foldE step p.1 l).bind (fun q => .ok (q.1, p.2 :: q.2)))

/-- The label loop (`for lbl in labels`) for one hemisphere. -/
noncomputable def fithemi (filt : Option FiltFn) (labels : List ℚ)
    (w : Weights) (hd : SubData) :
    Except String (Weights × List (Option FitResult)) :=
  foldE (fitcell filt hd) w labels

/-- The hemisphere loop (`for hdata in sdata`) for one subject. -/
noncomputable def fitsub (filt : Option FiltFn) (labels : List ℚ)
    (w : Weights) (hemis : List SubData) :
    Except String (Weights × List (List (Option FitResult))) :=
  foldE (fithemi filt labels) w hemis

/-- One subject of the outer loop, pairing the subject id with its results
(`result[sid] = tuple(sres)`). -/
noncomputable def fitsid (filt : Option FiltFn) (labels : List ℚ)
    (w : Weights) (p : String × List SubData) :
    Except String (Weights × (String × List (List (Option FitResult)))) :=
  (fitsub filt labels w p.2).map (fun q => (q.1, (p.1, q.2)))

/-- `np.arange(1, 11)`: the default `labels`. -/
def defaultLabels : List ℚ := [1, 2, 3, 4, 5, 6, 7, 8, 9, 10]

/-- `fitall_cmag_cumecc(data, ..., weights=..., filter=..., labels=...)`:
iterate subject × hemisphere × label (the dict `data` modelled as an
association list in iteration order), fitting each cell or recording `None`
for sparse cells; an uncaught exception is the result of the whole call. -/
noncomputable def fitall_cmag_cumecc (data : List (String × List SubData))
    (filt : Option FiltFn) (labels0 : Option (List ℚ)) (weights0 : Weights) :
    Except String (List (String × List (List (Option FitResult)))) :=
  (foldE (fitsid filt (labels0.getD defaultLabels)) weights0 data).map Prod.snd

/-- A ten-vertex hemisphere with five vertices of label `1` and five of
label `2`, used for concrete evaluations of the batch driver. -/
def exHemi : SubData :=
  ⟨[1, 1, 1, 1, 1, 2, 2, 2, 2, 2], List.replicate 10 0, List.replicate 10 0,
    List.replicate 10 0, List.replicate 10 0, List.replicate 10 0,
    List.replicate 10 1, List.replicate 10 1⟩

/-- **C1.** Contrary to the spec, a call of `fitall_cmag_cumecc` whose
`weights` argument names a data key does NOT record every qualifying cell as
a fit object: with two labels of five vertices each, the loop rebinds
`weights` to the first group's weight array and the truth-value test
`not weights` on that five-element array raises numpy's `ValueError` when the
second qualifying group is processed, so the call raises instead of returning
the documented null/fit-object table.  (The spec's description is the clear
intent; the rebinding of the `weights` parameter inside the loop is the
slip.) -/
theorem fitall_weighted_call_raises_concrete :
    fitall_cmag_cumecc [("s1", [exHemi])] Option.none (Option.some [1, 2])
        (Weights.key "cod") = .error ambiguousMsg := by
  rfl

theorem except_bind_ok {α β : Type} (x : α) (f : α → Except String β) :
    (Except.ok x).bind f = f x := rfl

theorem except_bind_error {α β : Type} (e : String) (f : α → Except String β) :
    (Except.error e : Except String α).bind f = Except.error e := rfl

/-- The loop's `weights` variable holds a multi-element numpy array (the state
after the first qualifying weighted fit). -/
def Sbig (w : Weights) : Prop := ∃ v, w = Weights.arr v ∧ 2 ≤ v.length

theorem maskSelect_length : ∀ (m : List Bool) (l : List ℚ), m.length ≤ l.length →
    (maskSelect l m).length = countTrue m
  | [], l, _ => by simp [maskSelect, countTrue]
  | _ :: _, [], h => by simp at h
  | b :: m, a :: l, h => by
    have ih := maskSelect_length m l (by simpa using h)
    cases b <;>
      simp [maskSelect, countTrue, List.count_cons, List.filter_cons] at ih ⊢ <;>
      omega

theorem selMask_length_le (filt : Option FiltFn) (hd : SubData) (lbl : ℚ) :
    (selMask filt hd lbl).length ≤ hd.label.length := by
  cases filt with
  | none => simp [selMask]
  | some f =>
    simp only [selMask, band, List.length_zipWith, List.length_map]
    exact min_le_right _ _

/-- All columns of a vertex-record mapping have the length of the label
column (the cached array is a rectangular stack). -/
def SubData.wf (d : SubData) : Prop :=
  d.x.length = d.label.length ∧ d.y.length = d.label.length ∧
    d.sigma.length = d.label.length ∧ d.polar_angle.length = d.label.length ∧
    d.eccentricity.length = d.label.length ∧
    d.surface_area.length = d.label.length ∧ d.cod.length = d.label.length

instance (d : SubData) : Decidable d.wf := by
  unfold SubData.wf
  infer_instance

theorem lookup_of_validKey (hd : SubData) (k : String)
    (hv : validKey k = true) (hwf : hd.wf) :
    ∃ col, hd.lookup k = Except.ok col ∧ hd.label.length ≤ col.length := by
  obtain ⟨h1, h2, h3, h4, h5, h6, h7⟩ := hwf
  rw [validKey] at hv
  simp only [Bool.or_eq_true, decide_eq_true_eq] at hv
  rcases hv with (((((((h | h) | h) | h) | h) | h) | h) | h) <;> subst h
  · exact ⟨hd.label, rfl, le_refl _⟩
  · exact ⟨hd.x, rfl, le_of_eq h1.symm⟩
  · exact ⟨hd.y, rfl, le_of_eq h2.symm⟩
  · exact ⟨hd.sigma, rfl, le_of_eq h3.symm⟩
  · exact ⟨hd.polar_angle, rfl, le_of_eq h4.symm⟩
  · exact ⟨hd.eccentricity, rfl, le_of_eq h5.symm⟩
  · exact ⟨hd.surface_area, rfl, le_of_eq h6.symm⟩
  · exact ⟨hd.cod, rfl, le_of_eq h7.symm⟩

/-- Whether the cell `(hd, lbl)` qualifies for a fit (at least `5` selected
vertices): `1` if so, else `0`. -/
def cellQual (filt : Option FiltFn) (hd : SubData) (lbl : ℚ) : Nat :=
  if 5 ≤ countTrue (selMask filt hd lbl) then 1 else 0

/-- Number of qualifying cells of one hemisphere. -/
def hemiQual (filt : Option FiltFn) (labels : List ℚ) (hd : SubData) : Nat :=
  (labels.map (cellQual filt hd)).sum

/-- Number of qualifying cells of one subject. -/
def subQual (filt : Option FiltFn) (labels : List ℚ)
    (hemis : List SubData) : Nat :=
  (hemis.map (hemiQual filt labels)).sum

/-- Number of qualifying cells of a whole batch call. -/
def dataQual (filt : Option FiltFn) (labels : List ℚ)
    (data : List (String × List SubData)) : Nat :=
  (data.map (fun p => subQual filt labels p.2)).sum

theorem cellQual_le_one (filt : Option FiltFn) (hd : SubData) (lbl : ℚ) :
    cellQual filt hd lbl ≤ 1 := by
  rw [cellQual]
  split <;> omega

theorem stepWeights_key (hd : SubData) (m : List Bool) (s : String)
    (hs : s ≠ "") (col : List ℚ) (hcol : hd.lookup s = .ok col) :
    stepWeights (Weights.key s) hd m = .ok (Weights.arr (maskSelect col m)) := by
  simp only [stepWeights, npNot, except_bind_ok]
  rw [decide_eq_false hs, if_neg Bool.false_ne_true, hcol, except_bind_ok]

theorem stepWeights_arr (hd : SubData) (m : List Bool) (v : List ℚ)
    (hlen : v.length ≠ 1) :
    stepWeights (Weights.arr v) hd m = .error ambiguousMsg := by
  simp only [stepWeights, npNot, if_neg hlen, except_bind_error]

theorem fitcell_qual_zero (filt : Option FiltFn) (hd : SubData) (w : Weights)
    (lbl : ℚ) (h : cellQual filt hd lbl = 0) :
    fitcell filt hd w lbl = .ok (w, Option.none) := by
  have hlt : countTrue (selMask filt hd lbl) < 5 := by
    rw [cellQual] at h
    split at h
    · omega
    · omega
  simp only [fitcell]
  rw [if_pos hlt]

theorem fitcell_qual_pos_key (filt : Option FiltFn) (hd : SubData) (lbl : ℚ)
    (s : String) (hwf : hd.wf) (hv : validKey s = true) (hs : s ≠ "")
    (h : 1 ≤ cellQual filt hd lbl) :
    ∃ w' b, fitcell filt hd (Weights.key s) lbl = .ok (w', b) ∧ Sbig w' := by
  have hge : 5 ≤ countTrue (selMask filt hd lbl) := by
    by_contra hlt
    rw [cellQual, if_neg hlt] at h
    omega
  obtain ⟨col, hcol, hlen⟩ := lookup_of_validKey hd s hv hwf
  have hcalc : fitcell filt hd (Weights.key s) lbl =
      .ok (Weights.arr (maskSelect col (selMask filt hd lbl)),
        Option.some (fit_cmag_cumecc
          ((maskSelect hd.x (selMask filt hd lbl)).map (fun q => (q : ℝ)))
          ((maskSelect hd.y (selMask filt hd lbl)).map (fun q => (q : ℝ)))
          ((maskSelect hd.surface_area (selMask filt hd lbl)).map
            (fun q => (q : ℝ))))) := by
    simp only [fitcell]
    rw [if_neg (by omega), stepWeights_key hd _ s hs col hcol, except_bind_ok]
  refine ⟨_, _, hcalc, maskSelect col (selMask filt hd lbl), rfl, ?_⟩
  rw [maskSelect_length _ _ (le_trans (selMask_length_le filt hd lbl) hlen)]
  omega

theorem fitcell_qual_pos_arr (filt : Option FiltFn) (hd : SubData) (lbl : ℚ)
    (v : List ℚ) (h2 : 2 ≤ v.length) (h : 1 ≤ cellQual filt hd lbl) :
    fitcell filt hd (Weights.arr v) lbl = .error ambiguousMsg := by
  have hge : 5 ≤ countTrue (selMask filt hd lbl) := by
    by_contra hlt
    rw [cellQual, if_neg hlt] at h
    omega
  simp only [fitcell]
  rw [if_neg (by omega), stepWeights_arr hd _ v (by omega), except_bind_error]

/-- State evolution of the rebound `weights` variable through one loop level:
with a step that (i) leaves the state alone on non-qualifying elements,
(ii) turns the key state into a multi-element array on a qualifying element
and (iii) raises numpy's ambiguity error on a qualifying element in the array
state, the fold from the key state succeeds with `0` or `1` qualifying
elements and raises with `2` or more. -/
theorem foldE_weights_tri {α β : Type}
    (step : Weights → α → Except String (Weights × β)) (cnt : α → Nat)
    (s : String) :
    ∀ l : List α,
      (∀ w, ∀ a ∈ l, cnt a = 0 → ∃ b, step w a = .ok (w, b)) →
      (∀ a ∈ l, cnt a = 1 →
        ∃ w' b, step (Weights.key s) a = .ok (w', b) ∧ Sbig w') →
      (∀ w, ∀ a ∈ l, Sbig w → 1 ≤ cnt a → step w a = .error ambiguousMsg) →
      (∀ a ∈ l, 2 ≤ cnt a → step (Weights.key s) a = .error ambiguousMsg) →
      (∀ w, (l.map cnt).sum = 0 → ∃ bs, foldE step w l = .ok (w, bs)) ∧
        ((l.map cnt).sum = 1 →
          ∃ w' bs, foldE step (Weights.key s) l = .ok (w', bs) ∧ Sbig w') ∧
        (2 ≤ (l.map cnt).sum →
          foldE step (Weights.key s) l = .error ambiguousMsg) ∧
        (∀ w, Sbig w → 1 ≤ (l.map cnt).sum →
          foldE step w l = .error ambiguousMsg) := by
  intro l
  induction l with
  | nil =>
    intro _ _ _ _
    refine ⟨fun w _ => ⟨[], rfl⟩, ?_, ?_, ?_⟩
    · intro h
      simp at h
    · intro h
      simp at h
    · intro w _ h
      simp at h
  | cons a l ih =>
    intro hzero hone hbig hmany
    obtain ⟨A, B, C, D⟩ := ih
      (fun w b hb => hzero w b (List.mem_cons_of_mem a hb))
      (fun b hb => hone b (List.mem_cons_of_mem a hb))
      (fun w b hb => hbig w b (List.mem_cons_of_mem a hb))
      (fun b hb => hmany b (List.mem_cons_of_mem a hb))
    have hsum : ((a :: l).map cnt).sum = cnt a + (l.map cnt).sum := by
      simp
    refine ⟨?_, ?_, ?_, ?_⟩
    · intro w h0
      rw [hsum] at h0
      obtain ⟨b, hb⟩ := hzero w a (List.mem_cons_self a l) (by omega)
      obtain ⟨bs, hbs⟩ := A w (by omega)
      exact ⟨b :: bs, by simp only [foldE, hb, except_bind_ok, hbs]⟩
    · intro h1
      rw [hsum] at h1
      rcases Nat.lt_or_ge (cnt a) 1 with hca | hca
      · obtain ⟨b, hb⟩ := hzero (Weights.key s) a (List.mem_cons_self a l)
          (by omega)
        obtain ⟨w', bs, hbs, hbig'⟩ := B (by omega)
        exact ⟨w', b :: bs, by simp only [foldE, hb, except_bind_ok, hbs], hbig'⟩
      · rcases Nat.lt_or_ge (cnt a) 2 with hca2 | hca2
        · obtain ⟨w', b, hb, hbig'⟩ := hone a (List.mem_cons_self a l) (by omega)
          obtain ⟨bs, hbs⟩ := A w' (by omega)
          exact ⟨w', b :: bs, by simp only [foldE, hb, except_bind_ok, hbs], hbig'⟩
        · omega
    · intro h2
      rw [hsum] at h2
      rcases Nat.lt_or_ge (cnt a) 1 with hca | hca
      · obtain ⟨b, hb⟩ := hzero (Weights.key s) a (List.mem_cons_self a l)
          (by omega)
        have hC := C (by omega)
        simp only [foldE, hb, except_bind_ok, hC, except_bind_error]
      · rcases Nat.lt_or_ge (cnt a) 2 with hca2 | hca2
        · obtain ⟨w', b, hb, hbig'⟩ := hone a (List.mem_cons_self a l) (by omega)
          have hD := D w' hbig' (by omega)
          simp only [foldE, hb, except_bind_ok, hD, except_bind_error]
        · have hM := hmany a (List.mem_cons_self a l) hca2
          simp only [foldE, hM, except_bind_error]
    · intro w hw h1
      rw [hsum] at h1
      rcases Nat.lt_or_ge (cnt a) 1 with hca | hca
      · obtain ⟨b, hb⟩ := hzero w a (List.mem_cons_self a l) (by omega)
        have hD := D w hw (by omega)
        simp only [foldE, hb, except_bind_ok, hD, except_bind_error]
      · have hB := hbig w a (List.mem_cons_self a l) hw hca
        simp only [foldE, hB, except_bind_error]

/-- The label-loop trichotomy for one hemisphere. -/
theorem fithemi_tri (filt : Option FiltFn) (labels : List ℚ) (s : String)
    (hs : s ≠ "") (hv : validKey s = true) (hd : SubData) (hwf : hd.wf) :
    (∀ w, hemiQual filt labels hd = 0 →
        ∃ bs, fithemi filt labels w hd = .ok (w, bs)) ∧
      (hemiQual filt labels hd = 1 →
        ∃ w' bs, fithemi filt labels (Weights.key s) hd = .ok (w', bs) ∧ Sbig w') ∧
      (2 ≤ hemiQual filt labels hd →
        fithemi filt labels (Weights.key s) hd = .error ambiguousMsg) ∧
      (∀ w, Sbig w → 1 ≤ hemiQual filt labels hd →
        fithemi filt labels w hd = .error ambiguousMsg) :=
  foldE_weights_tri (fitcell filt hd) (cellQual filt hd) s labels
    (fun w a _ h0 => ⟨_, fitcell_qual_zero filt hd w a h0⟩)
    (fun a _ h1 => fitcell_qual_pos_key filt hd a s hwf hv hs (by omega))
    (fun w a _ hb hq => by
      obtain ⟨v, rfl, h2⟩ := hb
      exact fitcell_qual_pos_arr filt hd a v h2 hq)
    (fun a _ h2 => absurd h2 (by have := cellQual_le_one filt hd a; omega))

/-- The hemisphere-loop trichotomy for one subject. -/
theorem fitsub_tri (filt : Option FiltFn) (labels : List ℚ) (s : String)
    (hs : s ≠ "") (hv : validKey s = true) (hemis : List SubData)
    (hwf : ∀ hd ∈ hemis, hd.wf) :
    (∀ w, subQual filt labels hemis = 0 →
        ∃ bs, fitsub filt labels w hemis = .ok (w, bs)) ∧
      (subQual filt labels hemis = 1 →
        ∃ w' bs, fitsub filt labels (Weights.key s) hemis = .ok (w', bs) ∧ Sbig w') ∧
      (2 ≤ subQual filt labels hemis →
        fitsub filt labels (Weights.key s) hemis = .error ambiguousMsg) ∧
      (∀ w, Sbig w → 1 ≤ subQual filt labels hemis →
        fitsub filt labels w hemis = .error ambiguousMsg) :=
  foldE_weights_tri (fithemi filt labels) (hemiQual filt labels) s hemis
    (fun w hd hm h0 => (fithemi_tri filt labels s hs hv hd (hwf hd hm)).1 w h0)
    (fun hd hm h1 => (fithemi_tri filt labels s hs hv hd (hwf hd hm)).2.1 h1)
    (fun w hd hm hb hq =>
      (fithemi_tri filt labels s hs hv hd (hwf hd hm)).2.2.2 w hb hq)
    (fun hd hm h2 => (fithemi_tri filt labels s hs hv hd (hwf hd hm)).2.2.1 h2)

/-- **C10.** Any call of `fitall_cmag_cumecc` whose `weights` argument is a
non-empty string naming a data column raises numpy's `ValueError` as soon as
a second group with at least `5` selected vertices is processed: the loop
rebinds `weights` to the first qualifying group's weight array (at least `5`
elements), and the next qualifying group's truth-value test `not weights` of
that multi-element array fails, so the documented per-group weighted fitting
never completes past one qualifying group (here: whenever at least two cells
of the rectangular data qualify, the whole call evaluates to the raised
error). -/
theorem fitall_weighted_raises_on_second_qualifying_group
    (data : List (String × List SubData)) (filt : Option FiltFn)
    (labels0 : Option (List ℚ)) (s : String)
    (hwf : ∀ p ∈ data, ∀ hd ∈ p.2, hd.wf)
    (hv : validKey s = true) (hs : s ≠ "")
    (hq : 2 ≤ dataQual filt (labels0.getD defaultLabels) data) :
    fitall_cmag_cumecc data filt labels0 (Weights.key s) = .error ambiguousMsg := by
  have h := foldE_weights_tri (fitsid filt (labels0.getD defaultLabels))
    (fun p => subQual filt (labels0.getD defaultLabels) p.2) s data
    (fun w p hm h0 => by
      obtain ⟨bs, hbs⟩ := (fitsub_tri filt _ s hs hv p.2 (hwf p hm)).1 w h0
      exact ⟨(p.1, bs), by rw [fitsid, hbs]; rfl⟩)
    (fun p hm h1 => by
      obtain ⟨w', bs, hbs, hbig'⟩ :=
        (fitsub_tri filt _ s hs hv p.2 (hwf p hm)).2.1 h1
      exact ⟨w', (p.1, bs), by rw [fitsid, hbs]; rfl, hbig'⟩)
    (fun w p hm hb hq1 => by
      have hbs := (fitsub_tri filt _ s hs hv p.2 (hwf p hm)).2.2.2 w hb hq1
      rw [fitsid, hbs]
      rfl)
    (fun p hm h2 => by
      have hbs := (fitsub_tri filt _ s hs hv p.2 (hwf p hm)).2.2.1 h2
      rw [fitsid, hbs]
      rfl)
  have hC := h.2.2.1 hq
  rw [fitall_cmag_cumecc, hC]
  rfl

/-- Witness for **C10**: one subject, one hemisphere with five vertices of
label `1` and five of label `2`, default labels, `weights = 'cod'`: two
qualifying groups, and the call evaluates to numpy's ambiguity `ValueError`. -/
theorem fitall_weighted_raises_on_second_qualifying_group_witness :
    (∀ p ∈ [("s1", [exHemi])], ∀ hd ∈ p.2, hd.wf) ∧
      validKey "cod" = true ∧ "cod" ≠ "" ∧
      2 ≤ dataQual Option.none ((Option.none : Option (List ℚ)).getD defaultLabels)
        [("s1", [exHemi])] ∧
      fitall_cmag_cumecc [("s1", [exHemi])] Option.none Option.none
        (Weights.key "cod") = .error ambiguousMsg :=
  ⟨by decide, by decide, by decide, by decide,
    fitall_weighted_raises_on_second_qualifying_group [("s1", [exHemi])]
      Option.none Option.none "cod" (by decide) (by decide) (by decide) (by decide)⟩

end CMag
